import Mathlib

/-!
Verification of the virtual-filesystem path utilities `vfs_construct_path`
and `vfs_normpath` from `utils.py`.  Strings are modelled as lists of
characters; Python's `s.split('/')` is `List.splitOn '/'` and `'/'.join`
is `List.intercalate ['/']`, which agree with the Python semantics on
every input (empty components are kept, the empty string splits to a
singleton list holding the empty component).
-/

/-- Strings are modelled as lists of characters. -/
abbrev Str := List Char

/-- Conversion from a Lean string literal to the character-list model. -/
def strOf (s : String) : Str := s.data

/-- The two-character parent-directory component. -/
def dotdot : Str := ['.', '.']

/-- Test for a leading slash, mirroring the startswith call in the source. -/
def startsWithSlash (p : Str) : Bool := p.head? == some '/'

/-- Test for at least two leading slashes. -/
def startsTwoSlashes : Str → Bool
  | c1 :: c2 :: _ => c1 == '/' && c2 == '/'
  | _ => false

/-- Test for at least three leading slashes. -/
def startsThreeSlashes : Str → Bool
  | c1 :: c2 :: c3 :: _ => c1 == '/' && c2 == '/' && c3 == '/'
  | _ => false

/-- Number of initial slashes the normalizer restores at the end: 0 when the
path is relative, 2 for the special POSIX double-slash form, 1 otherwise. -/
def initialSlashes (path : Str) : Nat :=
  if startsWithSlash path then
    if startsTwoSlashes path ∧ ¬ startsThreeSlashes path then 2 else 1
  else 0

/-- The component-scanning loop of `vfs_normpath`: `new_comps` is the output
list used as a stack, `slashes` is the value of `initial_slashes`.  The
guards are transcribed from the Python conditionals. -/
def normLoop (slashes : Nat) : List Str → List Str → List Str
  | new_comps, [] => new_comps
  | new_comps, comp :: rest =>
    if comp = [] ∨ comp = ['.'] then
      normLoop slashes new_comps rest
    else if comp ≠ dotdot ∨ (slashes = 0 ∧ new_comps = []) ∨
        (new_comps ≠ [] ∧ new_comps.getLast? = some dotdot) then
      normLoop slashes (new_comps ++ [comp]) rest
    else if new_comps ≠ [] then
      normLoop slashes new_comps.dropLast rest
    else
      normLoop slashes new_comps rest

/-- The joined-and-slash-restored string built by `vfs_normpath` just before
the final emptiness check (`slash.join(comps)` with the initial slashes
prepended). -/
def normRestored (path : Str) : Str :=
  List.replicate (initialSlashes path) '/' ++
    List.intercalate ['/'] (normLoop (initialSlashes path) [] (path.splitOn '/'))

/-- The path normalizer `vfs_normpath` from `utils.py`. -/
def vfs_normpath (path : Str) : Str :=
  if path = [] then ['.']
  else if normRestored path = [] then ['.']
  else normRestored path

/-- The path joiner `vfs_construct_path` from `utils.py`, mimicking the
behavior of `os.path.join` on Posix machines. -/
def vfs_construct_path (a : Str) (p : List Str) : Str :=
  p.foldl (fun path b =>
    if startsWithSlash b then b
    else if path = [] ∨ path.getLast? = some '/' then path ++ b
    else path ++ '/' :: b) a

/-- Number of leading slash characters of a string. -/
def leadingSlashCount : Str → Nat
  | [] => 0
  | c :: t => if c = '/' then leadingSlashCount t + 1 else 0

/-- Modelled from the spec wording for comparison with the source: the
handling of a component equal to `..` during the scan, with the three cases
in the order the specification lists them (pop, then append, then drop). -/
def ddStepSpec (absolute : Bool) (out : List Str) : List Str :=
  if out ≠ [] ∧ out.getLast? ≠ some dotdot then out.dropLast
  else if (absolute = false ∧ out = []) ∨ out.getLast? = some dotdot then out ++ [dotdot]
  else out

/-- Modelled from the spec wording for comparison with the source: one step
of the join fold described in the PathJoiner contract. -/
def joinStepSpec (path b : Str) : Str :=
  if b.head? = some '/' then b
  else if path = [] ∨ path.getLast? = some '/' then path ++ b
  else path ++ '/' :: b

/-- Modelled from the spec wording for comparison with the source: the left
fold over the segments that the PathJoiner contract describes. -/
def joinSpec (base : Str) (segs : List Str) : Str := segs.foldl joinStepSpec base

/-! Basic unfolding lemmas for the scanning loop. -/

theorem normLoop_nil (s : Nat) (acc : List Str) : normLoop s acc [] = acc := rfl

theorem normLoop_cons (s : Nat) (acc : List Str) (comp : Str) (rest : List Str) :
    normLoop s acc (comp :: rest) =
      if comp = [] ∨ comp = ['.'] then
        normLoop s acc rest
      else if comp ≠ dotdot ∨ (s = 0 ∧ acc = []) ∨
          (acc ≠ [] ∧ acc.getLast? = some dotdot) then
        normLoop s (acc ++ [comp]) rest
      else if acc ≠ [] then
        normLoop s acc.dropLast rest
      else
        normLoop s acc rest := rfl

theorem normLoop_skip {comp : Str} (h : comp = [] ∨ comp = ['.'])
    (s : Nat) (acc : List Str) (rest : List Str) :
    normLoop s acc (comp :: rest) = normLoop s acc rest := by
  rw [normLoop_cons, if_pos h]

theorem normLoop_push {s : Nat} {acc : List Str} {comp : Str}
    (h1 : ¬(comp = [] ∨ comp = ['.']))
    (h2 : comp ≠ dotdot ∨ (s = 0 ∧ acc = []) ∨ (acc ≠ [] ∧ acc.getLast? = some dotdot))
    (rest : List Str) :
    normLoop s acc (comp :: rest) = normLoop s (acc ++ [comp]) rest := by
  rw [normLoop_cons, if_neg h1, if_pos h2]

theorem normLoop_pop {s : Nat} {acc : List Str} {comp : Str}
    (h1 : ¬(comp = [] ∨ comp = ['.']))
    (h2 : ¬(comp ≠ dotdot ∨ (s = 0 ∧ acc = []) ∨ (acc ≠ [] ∧ acc.getLast? = some dotdot)))
    (h3 : acc ≠ []) (rest : List Str) :
    normLoop s acc (comp :: rest) = normLoop s acc.dropLast rest := by
  rw [normLoop_cons, if_neg h1, if_neg h2, if_pos h3]

theorem normLoop_stay {s : Nat} {acc : List Str} {comp : Str}
    (h1 : ¬(comp = [] ∨ comp = ['.']))
    (h2 : ¬(comp ≠ dotdot ∨ (s = 0 ∧ acc = []) ∨ (acc ≠ [] ∧ acc.getLast? = some dotdot)))
    (h3 : ¬acc ≠ []) (rest : List Str) :
    normLoop s acc (comp :: rest) = normLoop s acc rest := by
  rw [normLoop_cons, if_neg h1, if_neg h2, if_neg h3]

/-- Components that are nonempty, not `.` and not `..` are appended verbatim. -/
theorem normLoop_append_all (s : Nat) (M : List Str) :
    ∀ acc : List Str, (∀ c ∈ M, c ≠ [] ∧ c ≠ ['.'] ∧ c ≠ dotdot) →
      normLoop s acc M = acc ++ M := by
  induction M with
  | nil => intro acc _; simp [normLoop_nil]
  | cons comp rest ih =>
    intro acc h
    obtain ⟨h1, h2, h3⟩ := h comp (List.mem_cons_self _ _)
    have hskip : ¬(comp = [] ∨ comp = ['.']) := by simp [h1, h2]
    rw [normLoop_push hskip (Or.inl h3) rest,
      ih (acc ++ [comp]) (fun c hc => h c (List.mem_cons_of_mem _ hc))]
    simp

/-- In a relative path, a block of leading `..` components is absorbed into
the accumulated stack of `..` components. -/
theorem normLoop_rep_dd (k : Nat) :
    ∀ (j : Nat) (M : List Str),
      normLoop 0 (List.replicate j dotdot) (List.replicate k dotdot ++ M) =
        normLoop 0 (List.replicate (j + k) dotdot) M := by
  induction k with
  | zero => intro j M; simp
  | succ k ih =>
    intro j M
    have h1 : ¬((dotdot : Str) = [] ∨ (dotdot : Str) = ['.']) := by decide
    have h2 : (dotdot : Str) ≠ dotdot ∨ (0 = 0 ∧ List.replicate j dotdot = []) ∨
        (List.replicate j (dotdot : Str) ≠ [] ∧
          (List.replicate j (dotdot : Str)).getLast? = some dotdot) := by
      cases j with
      | zero => exact Or.inr (Or.inl ⟨rfl, rfl⟩)
      | succ j =>
        refine Or.inr (Or.inr ⟨by simp, ?_⟩)
        rw [List.getLast?_replicate]
        simp
    have : List.replicate (k + 1) (dotdot : Str) ++ M =
        dotdot :: (List.replicate k dotdot ++ M) := by
      rw [List.replicate_succ]; rfl
    have harith : j + (k + 1) = j + 1 + k := by omega
    rw [this, normLoop_push h1 h2, ← List.replicate_succ' j dotdot, ih (j + 1) M, harith]

/-- Every component in the output of the scan is nonempty and differs
from the single dot, provided the starting accumulator already satisfies
this. -/
theorem normLoop_keeps (s : Nat) (M : List Str) :
    ∀ acc : List Str, (∀ c ∈ acc, c ≠ [] ∧ c ≠ ['.']) →
      ∀ c ∈ normLoop s acc M, c ≠ [] ∧ c ≠ ['.'] := by
  induction M with
  | nil => intro acc hacc; simpa [normLoop_nil] using hacc
  | cons comp rest ih =>
    intro acc hacc
    by_cases h1 : comp = [] ∨ comp = ['.']
    · rw [normLoop_skip h1]; exact ih acc hacc
    by_cases h2 : comp ≠ dotdot ∨ (s = 0 ∧ acc = []) ∨
        (acc ≠ [] ∧ acc.getLast? = some dotdot)
    · rw [normLoop_push h1 h2]
      refine ih _ ?_
      intro c hc
      rcases List.mem_append.mp hc with h | h
      · exact hacc c h
      · push_neg at h1
        rcases List.mem_singleton.mp h with rfl
        exact h1
    by_cases h3 : acc ≠ []
    · rw [normLoop_pop h1 h2 h3]
      exact ih _ (fun c hc => hacc c ((List.dropLast_sublist acc).subset hc))
    · rw [normLoop_stay h1 h2 h3]; exact ih acc hacc

/-- The scan never introduces a slash into a component: outputs are built
from input components and the accumulator only. -/
theorem normLoop_no_slash (s : Nat) (M : List Str) :
    ∀ acc : List Str, (∀ c ∈ acc, '/' ∉ c) → (∀ c ∈ M, '/' ∉ c) →
      ∀ c ∈ normLoop s acc M, '/' ∉ c := by
  induction M with
  | nil => intro acc hacc _; simpa [normLoop_nil] using hacc
  | cons comp rest ih =>
    intro acc hacc hM
    have hMrest : ∀ c ∈ rest, '/' ∉ c := fun c hc => hM c (List.mem_cons_of_mem _ hc)
    by_cases h1 : comp = [] ∨ comp = ['.']
    · rw [normLoop_skip h1]; exact ih acc hacc hMrest
    by_cases h2 : comp ≠ dotdot ∨ (s = 0 ∧ acc = []) ∨
        (acc ≠ [] ∧ acc.getLast? = some dotdot)
    · rw [normLoop_push h1 h2]
      refine ih _ ?_ hMrest
      intro c hc
      rcases List.mem_append.mp hc with h | h
      · exact hacc c h
      · rcases List.mem_singleton.mp h with rfl
        exact hM c (List.mem_cons_self _ _)
    by_cases h3 : acc ≠ []
    · rw [normLoop_pop h1 h2 h3]
      exact ih _ (fun c hc => hacc c ((List.dropLast_sublist acc).subset hc)) hMrest
    · rw [normLoop_stay h1 h2 h3]; exact ih acc hacc hMrest

/-- When the path is absolute, no `..` component survives the scan. -/
theorem normLoop_no_dd (s : Nat) (hs : s ≠ 0) (M : List Str) :
    ∀ acc : List Str, dotdot ∉ acc → dotdot ∉ normLoop s acc M := by
  induction M with
  | nil => intro acc hacc; simpa [normLoop_nil] using hacc
  | cons comp rest ih =>
    intro acc hacc
    by_cases h1 : comp = [] ∨ comp = ['.']
    · rw [normLoop_skip h1]; exact ih acc hacc
    by_cases h2 : comp ≠ dotdot ∨ (s = 0 ∧ acc = []) ∨
        (acc ≠ [] ∧ acc.getLast? = some dotdot)
    · rw [normLoop_push h1 h2]
      refine ih _ ?_
      by_cases hcomp : comp = dotdot
      · subst hcomp
        rcases h2 with h | h | h
        · exact absurd rfl h
        · exact absurd h.1 hs
        · exact absurd (List.mem_of_getLast?_eq_some h.2) hacc
      · intro hmem
        rcases List.mem_append.mp hmem with h | h
        · exact hacc h
        · exact hcomp (List.mem_singleton.mp h).symm
    by_cases h3 : acc ≠ []
    · rw [normLoop_pop h1 h2 h3]
      exact ih _ (fun hc => hacc ((List.dropLast_sublist acc).subset hc))
    · rw [normLoop_stay h1 h2 h3]; exact ih acc hacc

/-- When the path is relative, the output of the scan is a block of `..`
components followed by components that are not `..`. -/
theorem normLoop_shape (M : List Str) :
    ∀ acc : List Str, (∃ k t, acc = List.replicate k dotdot ++ t ∧ dotdot ∉ t) →
      ∃ k t, normLoop 0 acc M = List.replicate k dotdot ++ t ∧ dotdot ∉ t := by
  induction M with
  | nil => intro acc hacc; simpa [normLoop_nil] using hacc
  | cons comp rest ih =>
    intro acc hacc
    by_cases h1 : comp = [] ∨ comp = ['.']
    · rw [normLoop_skip h1]; exact ih acc hacc
    by_cases h2 : comp ≠ dotdot ∨ (0 = 0 ∧ acc = []) ∨
        (acc ≠ [] ∧ acc.getLast? = some dotdot)
    · rw [normLoop_push h1 h2]
      apply ih
      obtain ⟨k, t, rfl, hts⟩ := hacc
      by_cases hcomp : comp = dotdot
      · subst hcomp
        have ht : t = [] := by
          rcases h2 with h | h | h
          · exact absurd rfl h
          · exact (List.append_eq_nil.mp h.2).2
          · by_contra htne
            rw [List.getLast?_append_of_ne_nil _ htne] at h
            exact hts (List.mem_of_getLast?_eq_some h.2)
        subst ht
        exact ⟨k + 1, [], by rw [List.append_nil, List.append_nil,
          ← List.replicate_succ' k dotdot], by simp⟩
      · refine ⟨k, t ++ [comp], by rw [List.append_assoc], ?_⟩
        intro hmem
        rcases List.mem_append.mp hmem with h | h
        · exact hts h
        · exact hcomp (List.mem_singleton.mp h).symm
    by_cases h3 : acc ≠ []
    · rw [normLoop_pop h1 h2 h3]
      apply ih
      obtain ⟨k, t, rfl, hts⟩ := hacc
      by_cases ht : t = []
      · subst ht
        rw [List.append_nil, List.dropLast_replicate]
        exact ⟨k - 1, [], by rw [List.append_nil], by simp⟩
      · rw [List.dropLast_append_of_ne_nil _ ht]
        exact ⟨k, t.dropLast, rfl, fun h => hts ((List.dropLast_sublist t).subset h)⟩
    · rw [normLoop_stay h1 h2 h3]; exact ih acc hacc

/-! Lemmas about splitting on the slash character. -/

theorem splitOn_cons_slash (t : Str) : ('/' :: t).splitOn '/' = [] :: t.splitOn '/' := by
  simp [List.splitOn, List.splitOnP_cons]

theorem splitOn_cons_of_ne {c : Char} (hc : c ≠ '/') (t : Str) :
    (c :: t).splitOn '/' = (t.splitOn '/').modifyHead (List.cons c) := by
  simp [List.splitOn, List.splitOnP_cons, hc]

theorem splitOn_ne_nil (s : Str) : s.splitOn '/' ≠ [] :=
  List.splitOnP_ne_nil _ s

/-- No component produced by splitting on the slash contains a slash. -/
theorem mem_splitOn_no_slash (s : Str) : ∀ c ∈ s.splitOn '/', '/' ∉ c := by
  induction s with
  | nil =>
    intro c hc
    simp only [List.splitOn_nil, List.mem_singleton] at hc
    subst hc; simp
  | cons a t ih =>
    intro c hc
    by_cases ha : a = '/'
    · subst ha
      rw [splitOn_cons_slash] at hc
      rcases List.mem_cons.mp hc with rfl | h
      · simp
      · exact ih c h
    · rw [splitOn_cons_of_ne ha] at hc
      cases hsp : t.splitOn '/' with
      | nil => exact absurd hsp (splitOn_ne_nil t)
      | cons hd tl =>
        rw [hsp] at hc
        simp only [List.modifyHead, List.mem_cons] at hc
        rcases hc with rfl | h
        · intro hmem
          rcases List.mem_cons.mp hmem with h | h
          · exact ha h.symm
          · exact ih hd (by rw [hsp]; exact List.mem_cons_self _ _) h
        · exact ih c (by rw [hsp]; exact List.mem_cons_of_mem _ h)

/-- Splitting a run of slashes yields one more empty component than there
are slashes. -/
theorem splitOn_rep_slash (k : Nat) :
    (List.replicate k '/' : Str).splitOn '/' = List.replicate (k + 1) ([] : Str) := by
  induction k with
  | zero => simp
  | succ k ih =>
    rw [List.replicate_succ, splitOn_cons_slash, ih]
    simp [List.replicate_succ]

/-- Splitting the restored string (slashes, then components joined by
slashes) recovers the leading empty components followed by the component
list. -/
theorem splitOn_restored (N : List Str) (hN : N ≠ []) (hsl : ∀ l ∈ N, '/' ∉ l) :
    ∀ k : Nat, (List.replicate k '/' ++ List.intercalate ['/'] N).splitOn '/' =
      List.replicate k ([] : Str) ++ N := by
  intro k
  induction k with
  | zero => simpa using List.splitOn_intercalate N '/' hsl hN
  | succ k ih =>
    rw [List.replicate_succ, List.cons_append, splitOn_cons_slash, ih,
      List.replicate_succ, List.cons_append]

/-! Lemmas about joining components and leading slashes. -/

/-- Joining a nonempty component list produces an extension of its first
component. -/
theorem intercalate_cons_eq_append (l : Str) (t : List Str) :
    ∃ r : Str, List.intercalate ['/'] (l :: t) = l ++ r := by
  cases t with
  | nil => exact ⟨[], by simp [List.intercalate]⟩
  | cons x t' =>
    exact ⟨'/' :: List.intercalate ['/'] (x :: t'),
      by simp [List.intercalate, List.intersperse_cons_cons]⟩

/-- If every component is nonempty and slash-free, the joined string does
not start with a slash. -/
theorem head?_intercalate_ne_slash (N : List Str)
    (h : ∀ c ∈ N, c ≠ [] ∧ '/' ∉ c) :
    (List.intercalate ['/'] N).head? ≠ some '/' := by
  cases N with
  | nil => simp [List.intercalate]
  | cons l t =>
    obtain ⟨r, hr⟩ := intercalate_cons_eq_append l t
    rw [hr]
    obtain ⟨hl, hsl⟩ := h l (List.mem_cons_self _ _)
    cases l with
    | nil => exact absurd rfl hl
    | cons c cs =>
      rw [List.cons_append]
      simp only [List.head?_cons, ne_eq, Option.some.injEq]
      intro hc
      exact hsl (by rw [hc]; exact List.mem_cons_self _ _)

theorem leadingSlashCount_eq_zero {s : Str} (h : s.head? ≠ some '/') :
    leadingSlashCount s = 0 := by
  cases s with
  | nil => rfl
  | cons c t =>
    have hc : c ≠ '/' := fun h' => h (by rw [h']; rfl)
    simp [leadingSlashCount, hc]

theorem leadingSlashCount_append (k : Nat) (x : Str) (hx : x.head? ≠ some '/') :
    leadingSlashCount (List.replicate k '/' ++ x) = k := by
  induction k with
  | zero => simpa using leadingSlashCount_eq_zero hx
  | succ k ih =>
    rw [List.replicate_succ, List.cons_append]
    simp [leadingSlashCount, ih]

/-! Lemmas about the computed number of initial slashes. -/

theorem initialSlashes_cases (p : Str) :
    initialSlashes p = 0 ∨ initialSlashes p = 1 ∨ initialSlashes p = 2 := by
  unfold initialSlashes
  split
  · split
    · exact Or.inr (Or.inr rfl)
    · exact Or.inr (Or.inl rfl)
  · exact Or.inl rfl

theorem initialSlashes_of_head_ne {x : Str} (hx : x.head? ≠ some '/') :
    initialSlashes x = 0 := by
  have : startsWithSlash x = false := by
    simp [startsWithSlash]
    intro h
    exact absurd h hx
  simp [initialSlashes, this]

theorem initialSlashes_one {x : Str} (hx : x.head? ≠ some '/') :
    initialSlashes ('/' :: x) = 1 := by
  cases x with
  | nil => decide
  | cons c t =>
    have hc : c ≠ '/' := fun h' => hx (by rw [h']; rfl)
    simp [initialSlashes, startsWithSlash, startsTwoSlashes, hc]

theorem initialSlashes_two {x : Str} (hx : x.head? ≠ some '/') :
    initialSlashes ('/' :: '/' :: x) = 2 := by
  cases x with
  | nil => decide
  | cons c t =>
    have hc : c ≠ '/' := fun h' => hx (by rw [h']; rfl)
    simp [initialSlashes, startsWithSlash, startsTwoSlashes, startsThreeSlashes, hc]

/-! The components output by the normalizer and the fixpoint property. -/

/-- Every component in the normalizer's output list is nonempty, is not
the single dot and contains no slash. -/
theorem normComps_good (p : Str) :
    ∀ c ∈ normLoop (initialSlashes p) [] (p.splitOn '/'),
      c ≠ [] ∧ c ≠ ['.'] ∧ '/' ∉ c := by
  intro c hc
  have h1 := normLoop_keeps (initialSlashes p) (p.splitOn '/') [] (by simp) c hc
  have h2 := normLoop_no_slash (initialSlashes p) (p.splitOn '/') [] (by simp)
    (mem_splitOn_no_slash p) c hc
  exact ⟨h1.1, h1.2, h2⟩

/-- Re-normalizing a joined component list with no initial slash changes
nothing, provided the list has the scan's output shape. -/
theorem normRestored_fix_rel (N : List Str) (hN : N ≠ [])
    (hgood : ∀ c ∈ N, c ≠ [] ∧ c ≠ ['.'] ∧ '/' ∉ c)
    (hshape : ∃ k t, N = List.replicate k dotdot ++ t ∧ dotdot ∉ t) :
    normRestored (List.intercalate ['/'] N) = List.intercalate ['/'] N := by
  have hhead : (List.intercalate ['/'] N).head? ≠ some '/' :=
    head?_intercalate_ne_slash N (fun c hc => ⟨(hgood c hc).1, (hgood c hc).2.2⟩)
  have hs0 : initialSlashes (List.intercalate ['/'] N) = 0 := initialSlashes_of_head_ne hhead
  have hsplit : (List.intercalate ['/'] N).splitOn '/' = N :=
    List.splitOn_intercalate N '/' (fun l hl => (hgood l hl).2.2) hN
  have hloop : normLoop 0 [] N = N := by
    obtain ⟨k, t, rfl, htdd⟩ := hshape
    have h0 : ([] : List Str) = List.replicate 0 dotdot := rfl
    rw [h0, normLoop_rep_dd k 0 t, normLoop_append_all 0 t _ ?_]
    · simp
    · intro c hc
      have hg := hgood c (List.mem_append_right _ hc)
      exact ⟨hg.1, hg.2.1, fun h => htdd (h ▸ hc)⟩
  unfold normRestored
  rw [hs0, hsplit, hloop]
  simp

/-- Re-normalizing a one-slash absolute result changes nothing. -/
theorem normRestored_fix_abs1 (N : List Str)
    (hgood : ∀ c ∈ N, c ≠ [] ∧ c ≠ ['.'] ∧ '/' ∉ c) (hdd : dotdot ∉ N) :
    normRestored ('/' :: List.intercalate ['/'] N) = '/' :: List.intercalate ['/'] N := by
  by_cases hN : N = []
  · subst hN; decide
  have hhead : (List.intercalate ['/'] N).head? ≠ some '/' :=
    head?_intercalate_ne_slash N (fun c hc => ⟨(hgood c hc).1, (hgood c hc).2.2⟩)
  have hs1 : initialSlashes ('/' :: List.intercalate ['/'] N) = 1 := initialSlashes_one hhead
  have hsplit : ('/' :: List.intercalate ['/'] N).splitOn '/' = [] :: N := by
    rw [splitOn_cons_slash,
      List.splitOn_intercalate N '/' (fun l hl => (hgood l hl).2.2) hN]
  have hloop : normLoop 1 [] ([] :: N) = N := by
    rw [normLoop_skip (Or.inl rfl),
      normLoop_append_all 1 N [] (fun c hc =>
        ⟨(hgood c hc).1, (hgood c hc).2.1, fun h => hdd (h ▸ hc)⟩)]
    simp
  unfold normRestored
  rw [hs1, hsplit, hloop]
  simp [List.replicate_succ]

/-- Re-normalizing a two-slash absolute result changes nothing. -/
theorem normRestored_fix_abs2 (N : List Str)
    (hgood : ∀ c ∈ N, c ≠ [] ∧ c ≠ ['.'] ∧ '/' ∉ c) (hdd : dotdot ∉ N) :
    normRestored ('/' :: '/' :: List.intercalate ['/'] N) =
      '/' :: '/' :: List.intercalate ['/'] N := by
  by_cases hN : N = []
  · subst hN; decide
  have hhead : (List.intercalate ['/'] N).head? ≠ some '/' :=
    head?_intercalate_ne_slash N (fun c hc => ⟨(hgood c hc).1, (hgood c hc).2.2⟩)
  have hs2 : initialSlashes ('/' :: '/' :: List.intercalate ['/'] N) = 2 :=
    initialSlashes_two hhead
  have hsplit : ('/' :: '/' :: List.intercalate ['/'] N).splitOn '/' = [] :: [] :: N := by
    rw [splitOn_cons_slash, splitOn_cons_slash,
      List.splitOn_intercalate N '/' (fun l hl => (hgood l hl).2.2) hN]
  have hloop : normLoop 2 [] ([] :: [] :: N) = N := by
    rw [normLoop_skip (Or.inl rfl), normLoop_skip (Or.inl rfl),
      normLoop_append_all 2 N [] (fun c hc =>
        ⟨(hgood c hc).1, (hgood c hc).2.1, fun h => hdd (h ▸ hc)⟩)]
    simp
  unfold normRestored
  rw [hs2, hsplit, hloop]
  simp [List.replicate_succ]

/-- The restored string is a fixpoint of restoring, whenever it is
nonempty. -/
theorem normRestored_fixpoint (p : Str) (hr : normRestored p ≠ []) :
    normRestored (normRestored p) = normRestored p := by
  have hgood := normComps_good p
  rcases initialSlashes_cases p with hs | hs | hs
  · have hq : normRestored p =
        List.intercalate ['/'] (normLoop 0 [] (p.splitOn '/')) := by
      unfold normRestored
      rw [hs]
      simp
    rw [hs] at hgood
    have hN : normLoop 0 [] (p.splitOn '/') ≠ [] := by
      intro h
      apply hr
      rw [hq, h]
      simp [List.intercalate]
    rw [hq]
    exact normRestored_fix_rel _ hN hgood
      (normLoop_shape (p.splitOn '/') [] ⟨0, [], by simp, by simp⟩)
  · have hdd : dotdot ∉ normLoop 1 [] (p.splitOn '/') :=
      normLoop_no_dd 1 (by omega) _ [] (by simp)
    have hq : normRestored p =
        '/' :: List.intercalate ['/'] (normLoop 1 [] (p.splitOn '/')) := by
      unfold normRestored
      rw [hs]
      simp [List.replicate_succ]
    rw [hs] at hgood
    rw [hq]
    exact normRestored_fix_abs1 _ hgood hdd
  · have hdd : dotdot ∉ normLoop 2 [] (p.splitOn '/') :=
      normLoop_no_dd 2 (by omega) _ [] (by simp)
    have hq : normRestored p =
        '/' :: '/' :: List.intercalate ['/'] (normLoop 2 [] (p.splitOn '/')) := by
      unfold normRestored
      rw [hs]
      simp [List.replicate_succ]
    rw [hs] at hgood
    rw [hq]
    exact normRestored_fix_abs2 _ hgood hdd

/-! Bridge lemmas between the normalizer output and leading slashes. -/

theorem leadingSlashCount_pos_iff (s : Str) :
    0 < leadingSlashCount s ↔ s.head? = some '/' := by
  cases s with
  | nil => simp [leadingSlashCount]
  | cons c t =>
    by_cases hc : c = '/'
    · subst hc; simp [leadingSlashCount]
    · simp [leadingSlashCount, hc]

theorem initialSlashes_pos_iff (p : Str) :
    0 < initialSlashes p ↔ p.head? = some '/' := by
  unfold initialSlashes startsWithSlash
  by_cases h : p.head? = some '/'
  · simp only [h, beq_self_eq_true, if_true]
    constructor
    · intro _; trivial
    · intro _; split <;> omega
  · have : (p.head? == some '/') = false := by
      simp only [beq_eq_false_iff_ne, ne_eq]
      exact h
    simp [this, h]

/-- The number of leading slashes of the normalized path is exactly the
initial-slash count computed from the input. -/
theorem leadingSlashCount_normpath (p : Str) :
    leadingSlashCount (vfs_normpath p) = initialSlashes p := by
  by_cases hp : p = []
  · subst hp; decide
  by_cases hr : normRestored p = []
  · have h0 : initialSlashes p = 0 := by
      unfold normRestored at hr
      rcases List.append_eq_nil.mp hr with ⟨h1, _⟩
      simpa using congrArg List.length h1
    have h : vfs_normpath p = ['.'] := by simp [vfs_normpath, hp, hr]
    rw [h, h0]; decide
  · have h : vfs_normpath p = normRestored p := by simp [vfs_normpath, hp, hr]
    rw [h]
    unfold normRestored
    exact leadingSlashCount_append _ _ (head?_intercalate_ne_slash _
      (fun c hc => ⟨(normComps_good p c hc).1, (normComps_good p c hc).2.2⟩))

theorem initialSlashes_eq_two_iff (p : Str) :
    initialSlashes p = 2 ↔
      (startsTwoSlashes p = true ∧ startsThreeSlashes p = false) := by
  by_cases h2 : startsTwoSlashes p = true
  · have h1 : startsWithSlash p = true := by
      cases p with
      | nil => simp [startsTwoSlashes] at h2
      | cons c1 t =>
        cases t with
        | nil => simp [startsTwoSlashes] at h2
        | cons c2 t' =>
          simp only [startsTwoSlashes, Bool.and_eq_true, beq_iff_eq] at h2
          simp [startsWithSlash, h2.1]
    by_cases h3 : startsThreeSlashes p = true
    · simp [initialSlashes, h1, h2, h3]
    · simp [initialSlashes, h1, h2, h3, Bool.not_eq_true] at *
  · have hcond : ¬(startsTwoSlashes p = true ∧ ¬startsThreeSlashes p = true) :=
      fun hh => h2 hh.1
    simp only [initialSlashes, hcond, if_false]
    constructor
    · intro h
      split at h <;> omega
    · intro h
      exact absurd h.1 h2

/-- The spec-worded join step agrees with the step function inside
`vfs_construct_path`. -/
theorem joinStepSpec_eq (path b : Str) :
    joinStepSpec path b =
      if startsWithSlash b then b
      else if path = [] ∨ path.getLast? = some '/' then path ++ b
      else path ++ '/' :: b := by
  unfold joinStepSpec startsWithSlash
  by_cases h : b.head? = some '/' <;> simp [h]

/-! The ten claims. -/

/-- C1: normalization is idempotent: for every string p,
normalize(normalize(p)) equals normalize(p). -/
theorem vfs_normpath_idempotent (p : Str) :
    vfs_normpath (vfs_normpath p) = vfs_normpath p := by
  by_cases hp : p = []
  · subst hp; decide
  by_cases hr : normRestored p = []
  · have h : vfs_normpath p = ['.'] := by simp [vfs_normpath, hp, hr]
    rw [h]; decide
  · have h : vfs_normpath p = normRestored p := by simp [vfs_normpath, hp, hr]
    rw [h]
    have hfix := normRestored_fixpoint p hr
    simp [vfs_normpath, hr, hfix]

/-- C2: on a component equal to `..` the scan behaves exactly as the
specification's three ordered cases describe (pop a resolvable entry, else
keep the `..` when the path is relative and the output empty or when the
last entry is `..`, else drop it above the root of an absolute path); and
normalize("/../a") = "/a" while normalize("../a") = "../a". -/
theorem normLoop_dotdot_step (s : Nat) (acc : List Str) (rest : List Str) :
    normLoop s acc (dotdot :: rest) =
      normLoop s (ddStepSpec (s != 0) acc) rest ∧
    vfs_normpath (strOf "/../a") = strOf "/a" ∧
    vfs_normpath (strOf "../a") = strOf "../a" := by
  refine ⟨?_, by decide, by decide⟩
  have h1 : ¬((dotdot : Str) = [] ∨ (dotdot : Str) = ['.']) := by decide
  by_cases hlast : acc.getLast? = some dotdot
  · have hne : acc ≠ [] := by
      intro h; rw [h] at hlast; simp at hlast
    rw [normLoop_push h1 (Or.inr (Or.inr ⟨hne, hlast⟩))]
    unfold ddStepSpec
    rw [if_neg (by simp [hlast]), if_pos (Or.inr hlast)]
  · by_cases hne : acc = []
    · subst hne
      unfold ddStepSpec
      rw [if_neg (by simp)]
      by_cases hs : s = 0
      · subst hs
        rw [normLoop_push h1 (Or.inr (Or.inl ⟨rfl, rfl⟩)),
          if_pos (Or.inl ⟨by decide, rfl⟩)]
      · have h2 : ¬((dotdot : Str) ≠ dotdot ∨ (s = 0 ∧ ([] : List Str) = []) ∨
            (([] : List Str) ≠ [] ∧ ([] : List Str).getLast? = some dotdot)) := by
          rintro (h | h | h)
          · exact h rfl
          · exact hs h.1
          · exact h.1 rfl
        rw [normLoop_stay h1 h2 (by simp), if_neg ?_]
        rintro (⟨hf, _⟩ | hl)
        · simp at hf
          exact hs hf
        · simp at hl
    · have h2 : ¬((dotdot : Str) ≠ dotdot ∨ (s = 0 ∧ acc = []) ∨
          (acc ≠ [] ∧ acc.getLast? = some dotdot)) := by
        rintro (h | h | h)
        · exact h rfl
        · exact hne h.2
        · exact hlast h.2
      rw [normLoop_pop h1 h2 hne]
      unfold ddStepSpec
      rw [if_pos ⟨hne, hlast⟩]

/-- C3: the normalized result carries exactly two leading slashes exactly
when the input starts with two slashes but not three; any other absolute
input yields exactly one leading slash; and the two spec examples hold. -/
theorem vfs_normpath_leading_slashes (p : Str) :
    (leadingSlashCount (vfs_normpath p) = 2 ↔
      (startsTwoSlashes p = true ∧ startsThreeSlashes p = false)) ∧
    (p.head? = some '/' →
      ¬(startsTwoSlashes p = true ∧ startsThreeSlashes p = false) →
      leadingSlashCount (vfs_normpath p) = 1) ∧
    vfs_normpath (strOf "//a/b") = strOf "//a/b" ∧
    vfs_normpath (strOf "////a") = strOf "/a" := by
  refine ⟨?_, ?_, by decide, by decide⟩
  · rw [leadingSlashCount_normpath]
    exact initialSlashes_eq_two_iff p
  · intro h1 h2
    rw [leadingSlashCount_normpath]
    have hsw : startsWithSlash p = true := by simp [startsWithSlash, h1]
    have hcond : ¬(startsTwoSlashes p = true ∧ ¬startsThreeSlashes p = true) := by
      intro hh
      exact h2 ⟨hh.1, by simpa using hh.2⟩
    unfold initialSlashes
    rw [if_pos hsw, if_neg hcond]

/-- Witness for C3 at the concrete absolute input "/a". -/
theorem vfs_normpath_leading_slashes_witness :
    leadingSlashCount (vfs_normpath (strOf "/a")) = 1 :=
  (vfs_normpath_leading_slashes (strOf "/a")).2.1 (by decide) (by decide)

/-- C4: the joiner equals the spec-described left fold over the segments,
and satisfies the three concrete examples; with no segments it returns the
base unchanged. -/
theorem vfs_construct_path_spec (a : Str) (p : List Str) :
    vfs_construct_path a p = joinSpec a p ∧
    vfs_construct_path (strOf "a") [strOf "b", strOf "c"] = strOf "a/b/c" ∧
    vfs_construct_path (strOf "a/") [strOf "b"] = strOf "a/b" ∧
    vfs_construct_path (strOf "a") [strOf "/b"] = strOf "/b" ∧
    vfs_construct_path a [] = a := by
  refine ⟨?_, by decide, by decide, by decide, rfl⟩
  have hstep : (fun (path b : Str) =>
      if startsWithSlash b then b
      else if path = [] ∨ path.getLast? = some '/' then path ++ b
      else path ++ '/' :: b) = joinStepSpec := by
    funext path b
    rw [joinStepSpec_eq]
  unfold vfs_construct_path joinSpec
  rw [hstep]

/-- C5: every component appended by the scan is nonempty and differs from
the single dot, so skipped empty and dot components never appear in the
output; and the two spec examples hold. -/
theorem vfs_normpath_skips (s : Nat) (comps : List Str) (c : Str)
    (hc : c ∈ normLoop s [] comps) :
    (c ≠ [] ∧ c ≠ ['.']) ∧
    vfs_normpath (strOf "a//b") = strOf "a/b" ∧
    vfs_normpath (strOf "a/./b/../c") = strOf "a/c" :=
  ⟨normLoop_keeps s comps [] (by simp) c hc, by decide, by decide⟩

/-- Witness for C5 on the concrete component list ["a"]. -/
theorem vfs_normpath_skips_witness :
    (strOf "a") ∈ normLoop 0 [] [strOf "a"] ∧
    ((strOf "a" ≠ [] ∧ strOf "a" ≠ ['.']) ∧
      vfs_normpath (strOf "a//b") = strOf "a/b" ∧
      vfs_normpath (strOf "a/./b/../c") = strOf "a/c") :=
  ⟨by decide, vfs_normpath_skips 0 [strOf "a"] (strOf "a") (by decide)⟩

/-- C6: composing the two functions on the concrete scenario yields
"a/c/d". -/
theorem vfs_compose_example :
    vfs_normpath (vfs_construct_path (strOf "a/b") [strOf "../c", strOf "./d"]) =
      strOf "a/c/d" := by decide

/-- C7: normalize returns "." on the empty string, returns "." whenever
the joined-and-slash-restored result is empty, and maps "." to ".". -/
theorem vfs_normpath_empty_dot (p : Str) :
    vfs_normpath [] = ['.'] ∧
    (normRestored p = [] → vfs_normpath p = ['.']) ∧
    vfs_normpath ['.'] = ['.'] := by
  refine ⟨by decide, ?_, by decide⟩
  intro hr
  by_cases hp : p = []
  · subst hp; decide
  · simp [vfs_normpath, hp, hr]

/-- Witness for C7 at the concrete input ".". -/
theorem vfs_normpath_empty_dot_witness :
    normRestored (strOf ".") = [] ∧ vfs_normpath (strOf ".") = ['.'] :=
  ⟨by decide, (vfs_normpath_empty_dot (strOf ".")).2.1 (by decide)⟩

/-- C8: both operations are total over all inputs of the string model:
each returns a string on every base, segment list and path. -/
theorem vfs_path_ops_total (a : Str) (p : List Str) (q : Str) :
    ∃ s t : Str, vfs_construct_path a p = s ∧ vfs_normpath q = t :=
  ⟨vfs_construct_path a p, vfs_normpath q, rfl, rfl⟩

/-- C9: normalization preserves absoluteness: the result starts with a
slash exactly when the input does. -/
theorem vfs_normpath_preserves_absolute (p : Str) :
    (vfs_normpath p).head? = some '/' ↔ p.head? = some '/' := by
  rw [← leadingSlashCount_pos_iff, leadingSlashCount_normpath,
    initialSlashes_pos_iff]

/-- C10: an absolute input normalizes to a path with no ".." component. -/
theorem vfs_normpath_abs_no_dotdot (p : Str) (h : p.head? = some '/') :
    dotdot ∉ (vfs_normpath p).splitOn '/' := by
  have hp : p ≠ [] := by
    intro hh; rw [hh] at h; simp at h
  have hpos : 0 < initialSlashes p := (initialSlashes_pos_iff p).mpr h
  have hr : normRestored p ≠ [] := by
    unfold normRestored
    intro hh
    rcases List.append_eq_nil.mp hh with ⟨h1, _⟩
    have := congrArg List.length h1
    simp at this
    omega
  have hq : vfs_normpath p = normRestored p := by simp [vfs_normpath, hp, hr]
  rw [hq]
  unfold normRestored
  have hgood := normComps_good p
  have hdd : dotdot ∉ normLoop (initialSlashes p) [] (p.splitOn '/') :=
    normLoop_no_dd _ (by omega) _ [] (by simp)
  by_cases hN : normLoop (initialSlashes p) [] (p.splitOn '/') = []
  · rw [hN, show List.intercalate ['/'] ([] : List Str) = [] from rfl,
      List.append_nil, splitOn_rep_slash]
    intro hmem
    exact absurd (List.eq_of_mem_replicate hmem) (by decide)
  · rw [splitOn_restored _ hN (fun l hl => (hgood l hl).2.2) _]
    intro hmem
    rcases List.mem_append.mp hmem with hmem | hmem
    · exact absurd (List.eq_of_mem_replicate hmem) (by decide)
    · exact hdd hmem

/-- Witness for C10 at the concrete absolute input "/..". -/
theorem vfs_normpath_abs_no_dotdot_witness :
    (strOf "/..").head? = some '/' ∧
    dotdot ∉ (vfs_normpath (strOf "/..")).splitOn '/' :=
  ⟨by decide, vfs_normpath_abs_no_dotdot (strOf "/..") (by decide)⟩

